import Mathlib

/-! Lazy initialisation of cache items (`main.cpp`).

A shallow embedding of `create`, `validate`, `hash`,
`partial_atomic_item::lazy_load` and of the configuration and worker code of
`main`, followed by the properties proved about them.

* `uint64_t` and `size_t` values are natural numbers, every arithmetic result
  being reduced with `wrap64` (the target has a 64-bit `size_t`).
* `std::array<uint64_t, 8>` is a function `Fin 8 → Nat`; a `for` loop over the
  array is a fold over `List.finRange`.
* A sequential call of `lazy_load` is the function `lazy_load`; its spin loop
  takes a bound on the number of iterations and yields `none` when the bound is
  exceeded.
* Concurrent calls on one entry are the transition system `step`: every access
  to the shared entry (`flag` or one element of `data`) is one transition of one
  caller, and an execution is a list of caller numbers (the schedule).
-/

namespace LazyDag

/-! ## Words and items -/

/-- Reduction to the range of `uint64_t` (and of `size_t`). -/
def wrap64 (x : Nat) : Nat := x % 2 ^ 64

/-- The type `cache_item`: the array `w` of eight words, zero-initialised. -/
@[ext]
structure cache_item where
  w : Fin 8 → Nat := fun _ => 0

/-- The function `create`: `item.w[i] = index + i + 17` for `i = 0, ..., 7`. -/
def create (index : Nat) : cache_item :=
  (List.finRange 8).foldl
    (fun item i => { item with w := Function.update item.w i (wrap64 (index + i.val + 17)) })
    {}

/-- The function `validate`: throws `short(1)` at the first word that differs
from `index + i + 17`, and returns normally when there is none. -/
def validate (index : Nat) (item : cache_item) : Except Int Unit :=
  (List.finRange 8).forM
    (fun i => if item.w i ≠ wrap64 (index + i.val + 17) then throw 1 else pure ())

/-- The function `hash`: `std::accumulate` of the eight words from `uint64_t(0)`. -/
def hash (item : cache_item) : Nat :=
  (List.finRange 8).foldl (fun acc i => wrap64 (acc + item.w i)) 0

/-! ## The entry and a sequential `lazy_load` -/

/-- The type `partial_atomic_item`: the atomic `flag` and the seven plain words
`data`, all zero initially. -/
@[ext]
structure partial_atomic_item where
  flag : Nat := 0
  data : Fin 7 → Nat := fun _ => 0

/-- The loop `while (f == 1) f = flag.load(acquire)` when no other thread
writes the flag: `fuel` bounds the number of iterations, `none` means that the
bound was reached with `f` still 1. -/
def spin_wait : Nat → Nat → Nat → Option Nat
  | fuel, flag, f =>
    if f = 1 then
      match fuel with
      | 0 => none
      | k + 1 => spin_wait k flag flag
    else some f

/-- A sequential call `self.lazy_load(index)`: the returned item and the entry
afterwards, or `none` when the spin loop exceeds `fuel` iterations. -/
def lazy_load (fuel : Nat) (self : partial_atomic_item) (index : Nat) :
    Option (cache_item × partial_atomic_item) :=
  if self.flag = 0 then
    -- compare_exchange_strong(f = 0, 1) succeeded
    let self1 : partial_atomic_item := { self with flag := 1 }
    let item := create index
    let self2 := (List.finRange 7).foldl
      (fun (s : partial_atomic_item) i =>
        { s with data := Function.update s.data i (item.w i.succ) }) self1
    let self3 : partial_atomic_item := { self2 with flag := item.w 0 }
    some (item, self3)
  else
    -- compare_exchange_strong failed and stored the current flag in f
    match spin_wait fuel self.flag self.flag with
    | none => none
    | some f =>
      let item0 : cache_item := {}
      let item1 : cache_item := { item0 with w := Function.update item0.w 0 f }
      let item := (List.finRange 7).foldl
        (fun (it : cache_item) i =>
          { it with w := Function.update it.w i.succ (self.data i) }) item1
      some (item, self)

/-- The entry state Ready: the flag is neither of the sentinels 0 and 1. -/
def ready (e : partial_atomic_item) : Prop := e.flag ≠ 0 ∧ e.flag ≠ 1

instance (e : partial_atomic_item) : Decidable (ready e) := by
  unfold ready; infer_instance

/-- The item assembled from the words stored in an entry. -/
def stored (e : partial_atomic_item) : cache_item :=
  { w := Fin.cases e.flag e.data }

/-- The entry left by the caller that initialises slot `index`. -/
def settled (index : Nat) : partial_atomic_item :=
  { flag := (create index).w 0, data := fun j => (create index).w j.succ }

/-- Repeated sequential calls `lazy_load(indices[0])`, `lazy_load(indices[1])`, ...
on one entry: the items returned and the entry afterwards. -/
def repeated_calls (fuel : Nat) :
    partial_atomic_item → List Nat → Option (List cache_item × partial_atomic_item)
  | e, [] => some ([], e)
  | e, index :: rest =>
    match lazy_load fuel e index with
    | none => none
    | some (item, e') =>
      match repeated_calls fuel e' rest with
      | none => none
      | some (items, e2) => some (item :: items, e2)

/-- Entries reachable from the fresh entry by sequential `lazy_load(index)` calls. -/
inductive seq_reachable (index : Nat) : partial_atomic_item → Prop
  | fresh : seq_reachable index {}
  | call (fuel : Nat) (e e' : partial_atomic_item) (item : cache_item) :
      seq_reachable index e → lazy_load fuel e index = some (item, e') →
      seq_reachable index e'

/-! ## Configuration in `main` -/

/-- The constant `cache_size` of `main`. -/
def cache_size : Nat := wrap64 (1 * 1024 * 1024 * 1024)

/-- The value of `sizeof(cache_item)`: eight words of eight bytes. -/
def sizeof_cache_item : Nat := 8 * 8

/-- The constant `n` of `main`: the number of cache items. -/
def n : Nat := cache_size / sizeof_cache_item

/-- The two exceptions of `std::stoul`. -/
inductive stoul_error
  | invalid_argument
  | out_of_range
  deriving DecidableEq

/-- The white-space characters skipped by `strtoul` (`isspace` in the C locale):
the space (32) and the control characters 9 to 13. -/
def isspace (c : Char) : Bool :=
  c.toNat = 32 || (9 ≤ c.toNat && c.toNat ≤ 13)

/-- The library function `std::stoul(str)` (base 10, no position output), after
the C++ standard: leading white space is skipped, an optional sign is read, then
the longest run of decimal digits; no digit gives `std::invalid_argument`, a
value above `ULONG_MAX` gives `std::out_of_range`, a minus sign negates in
`unsigned long`, and what follows the digits is ignored. -/
def std_stoul (str : String) : Except stoul_error Nat :=
  let cs := str.toList.dropWhile isspace
  let signed : Bool × List Char :=
    match cs with
    | c :: r =>
      if c.toNat = 45 then (true, r)        -- a minus sign
      else if c.toNat = 43 then (false, r)  -- a plus sign
      else (false, cs)
    | [] => (false, [])
  let ds := signed.2.takeWhile Char.isDigit
  if ds = [] then throw stoul_error.invalid_argument
  else
    let v := ds.foldl (fun a c => 10 * a + (c.toNat - 48)) 0
    if 2 ^ 64 ≤ v then throw stoul_error.out_of_range
    else pure (if signed.1 then wrap64 (2 ^ 64 - v) else v)

/-- The argument handling of `main`: the thread count `t` and
`global_iterations`, for the argument vector `argv` (`argc = argv.length`, the
program name first). The conversion `stoul` is a parameter; an exception it
throws is not caught in `main`. -/
def main_config {ε : Type} (stoul : String → Except ε Nat) (argv : List String) :
    Except ε (Nat × Nat) := do
  let t ← if 2 ≤ argv.length then stoul (argv.getD 1 "") else pure 64
  let global_iterations ←
    if 3 ≤ argv.length then stoul (argv.getD 2 "") else pure 100000000
  pure (t, global_iterations)

/-! ## The worker loop of `main` -/

/-- Where a caller of `lazy_load` stands, with the values of its locals. -/
inductive caller
  /-- Before `flag.compare_exchange_strong(f, 1)`. -/
  | at_cas
  /-- The exchange succeeded; before `create(index)`. -/
  | at_create
  /-- In the loop `data[i] = item.w[i + 1]`, and, once `i` is 7, before
  `flag.store(item.w[0])`. -/
  | at_copy (item : cache_item) (i : Nat)
  /-- At the test of `while (f == 1)`. -/
  | at_spin (f : Nat)
  /-- In the loop `item.w[i + 1] = data[i]`, then before `return item`. -/
  | at_read (item : cache_item) (i : Nat)
  /-- After `return item`. -/
  | returned (item : cache_item)

/-- One entry with its callers. `cas_wins` counts the successful exchanges and
`create_calls` the calls of `create`; neither is read by the program. -/
structure system where
  flag : Nat
  data : Fin 7 → Nat
  callers : List caller
  cas_wins : Nat
  create_calls : Nat

/-- A fresh entry with `k` callers that have not started. -/
def init (k : Nat) : system :=
  { flag := 0, data := fun _ => 0, callers := List.replicate k caller.at_cas,
    cas_wins := 0, create_calls := 0 }

/-- One transition of caller `t` of `lazy_load(index)`; nothing changes when
there is no such caller or it has returned. -/
def step (index : Nat) (s : system) (t : Nat) : system :=
  match s.callers[t]? with
  | none => s
  | some caller.at_cas =>
    if s.flag = 0 then
      { s with flag := 1, callers := s.callers.set t caller.at_create,
               cas_wins := s.cas_wins + 1 }
    else
      { s with callers := s.callers.set t (caller.at_spin s.flag) }
  | some caller.at_create =>
    { s with callers := s.callers.set t (caller.at_copy (create index) 0),
             create_calls := s.create_calls + 1 }
  | some (caller.at_copy item i) =>
    if h : i < 7 then
      { s with data := Function.update s.data ⟨i, h⟩ (item.w ⟨i + 1, by omega⟩),
               callers := s.callers.set t (caller.at_copy item (i + 1)) }
    else
      { s with flag := item.w 0, callers := s.callers.set t (caller.returned item) }
  | some (caller.at_spin f) =>
    if f = 1 then
      { s with callers := s.callers.set t (caller.at_spin s.flag) }
    else
      let item : cache_item := { w := Function.update (fun _ => 0) 0 f }
      { s with callers := s.callers.set t (caller.at_read item 0) }
  | some (caller.at_read item i) =>
    if h : i < 7 then
      let item1 : cache_item :=
        { item with w := Function.update item.w ⟨i + 1, by omega⟩ (s.data ⟨i, h⟩) }
      { s with callers := s.callers.set t (caller.at_read item1 (i + 1)) }
    else
      { s with callers := s.callers.set t (caller.returned item) }
  | some (caller.returned _) => s

/-- One caller alone on the entry `e`. -/
def solo (e : partial_atomic_item) : system :=
  { flag := e.flag, data := e.data, callers := [caller.at_cas], cas_wins := 0,
    create_calls := 0 }

/-- The execution of a schedule: the callers take their transitions in the
order listed. -/
def run (index : Nat) (s : system) (sched : List Nat) : system :=
  sched.foldl (step index) s

/-- The caller is between its successful exchange and its store to the flag. -/
def caller.winning : caller → Prop
  | caller.at_create => True
  | caller.at_copy _ _ => True
  | _ => False

/-- The caller's next transition writes an element of `data`. -/
def caller.writes_data : caller → Prop
  | caller.at_copy _ i => i < 7
  | _ => False

/-- The caller's next transition reads an element of `data`. -/
def caller.reads_data : caller → Prop
  | caller.at_read _ i => i < 7
  | _ => False


/-! ## Invariants used in the proofs -/

/-- What holds of the locals of a caller, given the shared words and the count
of `create` calls. -/
def caller.ok (index flag : Nat) (data : Fin 7 → Nat) (create_calls : Nat) : caller → Prop
  | caller.at_cas => True
  | caller.at_create => flag = 1 ∧ create_calls = 0
  | caller.at_copy item i =>
    flag = 1 ∧ create_calls = 1 ∧ item = create index ∧ i ≤ 7 ∧
      ∀ j : Fin 7, j.val < i → data j = (create index).w j.succ
  | caller.at_spin f => flag ≠ 0 ∧ (f = 1 ∨ (f = flag ∧ flag ≠ 1))
  | caller.at_read item i =>
    flag ≠ 0 ∧ flag ≠ 1 ∧ i ≤ 7 ∧ item.w 0 = (create index).w 0 ∧
      ∀ j : Fin 7, j.val < i → item.w j.succ = (create index).w j.succ
  | caller.returned item => flag ≠ 0 ∧ flag ≠ 1 ∧ item = create index

/-- The caller has called `create`: it is in the copy loop, before the store to
the flag, or has returned. -/
def caller.created : caller → Prop
  | caller.at_copy _ _ => True
  | caller.returned _ => True
  | _ => False

/-- The caller has passed its exchange and is not spinning or reading. -/
def caller.past_cas : caller → Prop
  | caller.at_create => True
  | caller.at_copy _ _ => True
  | caller.returned _ => True
  | _ => False

/-- At most one caller of the list is between its exchange and its store. -/
def one_winner (l : List caller) : Prop :=
  ∀ (t u : Nat) (c d : caller), l[t]? = some c → l[u]? = some d → c.winning → d.winning → t = u

/-- The invariant of the executions of `lazy_load(index)` callers on one entry. -/
structure inv (index : Nat) (s : system) : Prop where
  fresh : s.flag = 0 → s.cas_wins = 0 ∧ s.create_calls = 0
  won : s.flag ≠ 0 → s.cas_wins = 1
  calls_le : s.create_calls ≤ s.cas_wins
  settled : s.flag ≠ 0 → s.flag ≠ 1 →
    s.flag = (create index).w 0 ∧ s.create_calls = 1 ∧
      ∀ j : Fin 7, s.data j = (create index).w j.succ
  unique : one_winner s.callers
  callers_ok : ∀ (t : Nat) (c : caller), s.callers[t]? = some c → c.ok index s.flag s.data s.create_calls

/-! ## Lemmas on words, `create`, `validate` -/

theorem wrap64_of_lt {x : Nat} (h : x < 2 ^ 64) : wrap64 x = x := Nat.mod_eq_of_lt h

theorem n_eq : n = 16777216 := by decide

theorem create_w (index : Nat) (j : Fin 8) :
    (create index).w j = wrap64 (index + j.val + 17) := by
  fin_cases j <;> rfl

theorem create_w_of_lt {index : Nat} (h : index < n) (j : Fin 8) :
    (create index).w j = index + j.val + 17 := by
  rw [create_w]
  apply wrap64_of_lt
  have hj := j.isLt
  rw [n_eq] at h
  omega

theorem forM_check_ok {α : Type} (p : α → Prop) [DecidablePred p] (l : List α) :
    l.forM (fun i => if p i then (throw 1 : Except Int Unit) else pure ()) = Except.ok () ↔
      ∀ i ∈ l, ¬ p i := by
  induction l with
  | nil => simp [List.forM]; rfl
  | cons a l ih =>
    simp only [List.forM, List.mem_cons, forall_eq_or_imp]
    by_cases h : p a
    · simp [h]; intro hc; cases hc
    · simp [h]
      exact ih

theorem forM_check_error {α : Type} (p : α → Prop) [DecidablePred p] (l : List α) :
    l.forM (fun i => if p i then (throw 1 : Except Int Unit) else pure ()) = Except.ok () ∨
    l.forM (fun i => if p i then (throw 1 : Except Int Unit) else pure ()) = Except.error 1 := by
  induction l with
  | nil => left; rfl
  | cons a l ih =>
    simp only [List.forM]
    by_cases h : p a
    · right; simp [h]; rfl
    · simp [h]
      exact ih

theorem validate_ok_iff (index : Nat) (item : cache_item) :
    validate index item = Except.ok () ↔
      ∀ j : Fin 8, item.w j = wrap64 (index + j.val + 17) := by
  unfold validate
  rw [forM_check_ok]
  simp

theorem validate_create (index : Nat) : validate index (create index) = Except.ok () :=
  (validate_ok_iff index _).2 (create_w index)

/-- The function `hash` is the sum of the eight words modulo `2^64`. -/
theorem hash_eq (item : cache_item) :
    hash item = (item.w 0 + item.w 1 + item.w 2 + item.w 3 + item.w 4 + item.w 5 + item.w 6 +
      item.w 7) % 2 ^ 64 := by
  have h : hash item = wrap64 (wrap64 (wrap64 (wrap64 (wrap64 (wrap64 (wrap64 (wrap64
      (0 + item.w 0) + item.w 1) + item.w 2) + item.w 3) + item.w 4) + item.w 5) + item.w 6) +
      item.w 7) := rfl
  rw [h]
  simp only [wrap64, Nat.zero_add, Nat.mod_add_mod]

/-! ## Lemmas on a sequential `lazy_load` -/

theorem lazy_load_fresh (fuel : Nat) (e : partial_atomic_item) (index : Nat)
    (h : e.flag = 0) : lazy_load fuel e index = some (create index, settled index) := by
  unfold lazy_load
  rw [if_pos h]
  simp only [Option.some.injEq, Prod.mk.injEq, true_and]
  apply partial_atomic_item.ext
  · rfl
  · funext j
    fin_cases j <;> rfl

theorem spin_wait_settled (fuel flag : Nat) (h : flag ≠ 1) :
    spin_wait fuel flag flag = some flag := by
  unfold spin_wait
  rw [if_neg h]

theorem spin_wait_one (fuel : Nat) : spin_wait fuel 1 1 = none := by
  induction fuel with
  | zero => unfold spin_wait; simp
  | succ k ih => unfold spin_wait; simpa using ih

theorem lazy_load_ready (fuel : Nat) (e : partial_atomic_item) (index : Nat)
    (h0 : e.flag ≠ 0) (h1 : e.flag ≠ 1) : lazy_load fuel e index = some (stored e, e) := by
  unfold lazy_load
  rw [if_neg h0, spin_wait_settled fuel e.flag h1]
  simp only [Option.some.injEq, Prod.mk.injEq, and_true]
  apply cache_item.ext
  funext j
  fin_cases j <;> rfl

theorem lazy_load_in_progress (fuel : Nat) (e : partial_atomic_item) (index : Nat)
    (h : e.flag = 1) : lazy_load fuel e index = none := by
  unfold lazy_load
  rw [if_neg (by omega), h, spin_wait_one]

theorem stored_settled (index : Nat) : stored (settled index) = create index := by
  apply cache_item.ext
  funext j
  refine Fin.cases ?_ ?_ j
  · rfl
  · intro i; rfl

theorem settled_flag_of_lt {index : Nat} (h : index < n) :
    (settled index).flag = index + 17 := by
  show (create index).w 0 = index + 17
  rw [create_w_of_lt h]; rfl

theorem seq_reachable_cases {index : Nat} (h : index < n) {e : partial_atomic_item}
    (hr : seq_reachable index e) : e = {} ∨ e = settled index := by
  induction hr with
  | fresh => left; rfl
  | call fuel e e' item _ hcall ih =>
    right
    rcases ih with rfl | rfl
    · rw [lazy_load_fresh fuel _ index rfl] at hcall
      simp only [Option.some.injEq, Prod.mk.injEq] at hcall
      exact hcall.2.symm
    · have hf := settled_flag_of_lt h
      rw [lazy_load_ready fuel _ index (by omega) (by omega)] at hcall
      simp only [Option.some.injEq, Prod.mk.injEq] at hcall
      exact hcall.2.symm


/-! ## Lemmas on the worker loop -/

theorem lazy_load_of_dag_ok {index : Nat} (h : index < n) {e : partial_atomic_item}
    (he : e = {} ∨ e = settled index) (fuel : Nat) :
    lazy_load fuel e index = some (create index, settled index) := by
  rcases he with rfl | rfl
  · exact lazy_load_fresh fuel _ index rfl
  · have hf := settled_flag_of_lt h
    rw [lazy_load_ready fuel _ index (by omega) (by omega), stored_settled]

theorem getElem?_set_cases {l : List caller} {t u : Nat} {c' d : caller}
    (h : (l.set t c')[u]? = some d) : (u = t ∧ d = c') ∨ (u ≠ t ∧ l[u]? = some d) := by
  rw [List.getElem?_set] at h
  by_cases htu : t = u
  · subst htu
    rw [if_pos rfl] at h
    split at h
    · exact Or.inl ⟨rfl, (Option.some.inj h).symm⟩
    · cases h
  · rw [if_neg htu] at h
    exact Or.inr ⟨fun e => htu e.symm, h⟩

theorem one_winner_set {l : List caller} {t : Nat} {c c' : caller} (hu : one_winner l)
    (ht : l[t]? = some c) (hw : c'.winning → c.winning) : one_winner (l.set t c') := by
  intro a b x y ha hb hx hy
  rcases getElem?_set_cases ha with ⟨rfl, rfl⟩ | ⟨hane, ha'⟩ <;>
    rcases getElem?_set_cases hb with ⟨rfl, rfl⟩ | ⟨hbne, hb'⟩
  · rfl
  · exact (hu _ _ _ _ hb' ht hy (hw hx)).symm
  · exact hu _ _ _ _ ha' ht hx (hw hy)
  · exact hu _ _ _ _ ha' hb' hx hy

theorem not_winning_of_ne {l : List caller} {t u : Nat} {c d : caller} (hu : one_winner l)
    (ht : l[t]? = some c) (hc : c.winning) (hne : u ≠ t) (hd : l[u]? = some d) :
    ¬ d.winning := fun hw => hne (hu _ _ _ _ hd ht hw hc)

theorem ok_of_not_winning {index flag : Nat} {data data' : Fin 7 → Nat} {cc cc' : Nat}
    {d : caller} (hw : ¬ d.winning) (h : d.ok index flag data cc) :
    d.ok index flag data' cc' := by
  cases d <;> simp_all [caller.ok, caller.winning]

theorem ok_flag_zero {index : Nat} {data : Fin 7 → Nat} {cc : Nat} {d : caller}
    (h : d.ok index 0 data cc) : d = caller.at_cas := by
  cases d <;> simp_all [caller.ok]

theorem ok_after_store {index flag' : Nat} {data data' : Fin 7 → Nat} {cc cc' : Nat}
    {d : caller} (hw : ¬ d.winning) (h : d.ok index 1 data cc) (hf : flag' ≠ 0) :
    d.ok index flag' data' cc' := by
  cases d <;> simp_all [caller.ok, caller.winning]

theorem inv_init (index k : Nat) : inv index (init k) := by
  refine ⟨fun _ => ⟨rfl, rfl⟩, fun h => absurd rfl h, Nat.le_refl _, fun h => absurd rfl h, ?_, ?_⟩
  · intro t u c d ht _ hc _
    simp only [init, List.getElem?_replicate] at ht
    split at ht
    · cases Option.some.inj ht; exact absurd hc (by simp [caller.winning])
    · cases ht
  · intro t c ht
    simp only [init, List.getElem?_replicate] at ht
    split at ht
    · cases Option.some.inj ht; trivial
    · cases ht

theorem inv_set_local {index : Nat} {s : system} (hi : inv index s) {t : Nat} {c c' : caller}
    (ht : s.callers[t]? = some c) (hw : ¬ c'.winning)
    (hok : c'.ok index s.flag s.data s.create_calls) :
    inv index { s with callers := s.callers.set t c' } := by
  refine ⟨hi.fresh, hi.won, hi.calls_le, hi.settled, ?_, ?_⟩
  · exact one_winner_set hi.unique ht (fun h => absurd h hw)
  · intro u d hd
    rcases getElem?_set_cases hd with ⟨rfl, rfl⟩ | ⟨_, hd'⟩
    · exact hok
    · exact hi.callers_ok u d hd'

theorem inv_step {index : Nat} (h0 : (create index).w 0 ≠ 0) (h1 : (create index).w 0 ≠ 1)
    {s : system} (hi : inv index s) (t : Nat) : inv index (step index s t) := by
  unfold step
  split
  · exact hi
  · -- the exchange
    next ht =>
    split
    · next hf =>
      obtain ⟨hcw, hcc⟩ := hi.fresh hf
      have hall : ∀ (u : Nat) (d : caller), s.callers[u]? = some d → d = caller.at_cas := by
        intro u d hd
        have := hi.callers_ok u d hd
        rw [hf] at this
        exact ok_flag_zero this
      refine ⟨fun h => absurd h Nat.one_ne_zero, ?_, ?_, fun _ h => absurd rfl h, ?_, ?_⟩
      · intro _
        show s.cas_wins + 1 = 1
        omega
      · show s.create_calls ≤ s.cas_wins + 1
        omega
      · intro a b x y ha hb hx hy
        rcases getElem?_set_cases ha with ⟨rfl, rfl⟩ | ⟨_, ha'⟩ <;>
          rcases getElem?_set_cases hb with ⟨rfl, rfl⟩ | ⟨_, hb'⟩
        · rfl
        · rw [hall _ _ hb'] at hy; exact False.elim hy
        · rw [hall _ _ ha'] at hx; exact False.elim hx
        · rw [hall _ _ ha'] at hx; exact False.elim hx
      · intro u d hd
        rcases getElem?_set_cases hd with ⟨rfl, rfl⟩ | ⟨_, hd'⟩
        · exact ⟨rfl, hcc⟩
        · rw [hall u d hd']; trivial
    · next hf =>
      refine inv_set_local hi ht (fun h => h) ?_
      refine ⟨hf, ?_⟩
      by_cases hone : s.flag = 1
      · exact Or.inl hone
      · exact Or.inr ⟨rfl, hone⟩
  · -- the call of create
    next ht =>
    obtain ⟨hf, hcc⟩ := hi.callers_ok t _ ht
    have hwon := hi.won (by omega)
    refine ⟨fun h => ?_, fun _ => hwon, ?_, fun _ h => absurd hf h, ?_, ?_⟩
    · have h' : s.flag = 0 := h
      omega
    · show s.create_calls + 1 ≤ s.cas_wins
      omega
    · exact one_winner_set hi.unique ht (fun _ => trivial)
    · intro u d hd
      rcases getElem?_set_cases hd with ⟨rfl, rfl⟩ | ⟨hne, hd'⟩
      · exact ⟨hf, by show s.create_calls + 1 = 1; omega, rfl, Nat.zero_le _,
          fun j hj => absurd hj (Nat.not_lt_zero _)⟩
      · exact ok_of_not_winning (not_winning_of_ne hi.unique ht trivial hne hd')
          (hi.callers_ok u d hd')
  · -- the copy loop and the store to the flag
    next item i ht =>
    obtain ⟨hf, hcc, hitem, hi7, hdata⟩ := hi.callers_ok t _ ht
    have hwon := hi.won (by omega)
    split
    · next hlt =>
      refine ⟨fun h => ?_, fun _ => hwon, hi.calls_le, fun _ h => absurd hf h, ?_, ?_⟩
      · have h' : s.flag = 0 := h
        omega
      · exact one_winner_set hi.unique ht (fun _ => trivial)
      · intro u d hd
        rcases getElem?_set_cases hd with ⟨rfl, rfl⟩ | ⟨hne, hd'⟩
        · refine ⟨hf, hcc, hitem, by omega, fun j hj => ?_⟩
          show Function.update s.data ⟨i, hlt⟩ _ j = _
          by_cases hji : j = ⟨i, hlt⟩
          · subst hji
            rw [Function.update_same, hitem]
            rfl
          · rw [Function.update_noteq hji]
            apply hdata j
            have : j.val ≠ i := fun e => hji (Fin.ext e)
            omega
        · exact ok_of_not_winning (not_winning_of_ne hi.unique ht trivial hne hd')
            (hi.callers_ok u d hd')
    · next hge =>
      have hflag0 : item.w 0 ≠ 0 := by rw [hitem]; exact h0
      have hflag1 : item.w 0 ≠ 1 := by rw [hitem]; exact h1
      refine ⟨fun h => absurd h hflag0, fun _ => hwon, hi.calls_le, fun _ _ => ?_, ?_, ?_⟩
      · exact ⟨by rw [hitem], hcc, fun j => hdata j (by have := j.isLt; omega)⟩
      · exact one_winner_set hi.unique ht (fun h => False.elim h)
      · intro u d hd
        rcases getElem?_set_cases hd with ⟨rfl, rfl⟩ | ⟨hne, hd'⟩
        · exact ⟨hflag0, hflag1, hitem⟩
        · have hd_ok := hi.callers_ok u d hd'
          rw [hf] at hd_ok
          exact ok_after_store (not_winning_of_ne hi.unique ht trivial hne hd') hd_ok hflag0
  · -- the spin loop
    next f ht =>
    obtain ⟨hf0, hf⟩ := hi.callers_ok t _ ht
    split
    · next hone =>
      refine inv_set_local hi ht (fun h => h) ⟨hf0, ?_⟩
      by_cases hs : s.flag = 1
      · exact Or.inl hs
      · exact Or.inr ⟨rfl, hs⟩
    · next hone =>
      rcases hf with hf | ⟨hff, hf1⟩
      · exact absurd hf hone
      · refine inv_set_local hi ht (fun h => h) ⟨hf0, hf1, Nat.zero_le _, ?_,
          fun j hj => absurd hj (Nat.not_lt_zero _)⟩
        show Function.update (fun _ => 0) 0 f 0 = _
        rw [Function.update_same, hff]
        exact (hi.settled hf0 hf1).1
  · -- the loop reading the data
    next item i ht =>
    obtain ⟨hf0, hf1, hi7, hw0, hw⟩ := hi.callers_ok t _ ht
    split
    · next hlt =>
      refine inv_set_local hi ht (fun h => h) ⟨hf0, hf1, by omega, ?_, fun j hj => ?_⟩
      · show Function.update item.w ⟨i + 1, by omega⟩ (s.data ⟨i, hlt⟩) 0 = _
        have hne : (0 : Fin 8) ≠ ⟨i + 1, by omega⟩ := by
          intro e
          have := Fin.ext_iff.1 e
          simp at this
        rw [Function.update_noteq hne]
        exact hw0
      · show Function.update item.w ⟨i + 1, by omega⟩ (s.data ⟨i, hlt⟩) j.succ = _
        by_cases hji : j.val = i
        · have hjs : j.succ = ⟨i + 1, by omega⟩ := Fin.ext (by simp [hji])
          rw [hjs, Function.update_same]
          have hj' : j = ⟨i, hlt⟩ := Fin.ext hji
          rw [← hjs, hj']
          exact (hi.settled hf0 hf1).2.2 _
        · have hne : j.succ ≠ ⟨i + 1, by omega⟩ := by
            intro e
            have := Fin.ext_iff.1 e
            simp at this
            exact hji this
          rw [Function.update_noteq hne]
          exact hw j (by omega)
    · next hge =>
      refine inv_set_local hi ht (fun h => h) ⟨hf0, hf1, ?_⟩
      apply cache_item.ext
      funext j
      refine Fin.cases ?_ ?_ j
      · exact hw0
      · intro j'
        exact hw j' (by have := j'.isLt; omega)
  · exact hi

theorem inv_run {index : Nat} (h0 : (create index).w 0 ≠ 0) (h1 : (create index).w 0 ≠ 1)
    (sched : List Nat) : ∀ s : system, inv index s → inv index (run index s sched) := by
  induction sched with
  | nil => intro s hs; exact hs
  | cons t rest ih => intro s hs; exact ih _ (inv_step h0 h1 hs t)

theorem create_w0_of_lt {index : Nat} (h : index < n) : (create index).w 0 = index + 17 := by
  rw [create_w_of_lt h]; rfl

theorem inv_reachable {index : Nat} (h : index < n) (k : Nat) (sched : List Nat) :
    inv index (run index (init k) sched) := by
  have hw := create_w0_of_lt h
  exact inv_run (by omega) (by omega) sched _ (inv_init index k)

theorem run_append (index : Nat) (s : system) (a b : List Nat) :
    run index s (a ++ b) = run index (run index s a) b := by
  simp [run, List.foldl_append]

/-! ## Progress along a schedule -/

theorem step_length (index : Nat) (s : system) (t : Nat) :
    (step index s t).callers.length = s.callers.length := by
  unfold step
  split
  · rfl
  · split <;> simp [List.length_set]
  · simp [List.length_set]
  · split <;> simp [List.length_set]
  · split <;> simp [List.length_set]
  · split <;> simp [List.length_set]
  · rfl

theorem run_length (index : Nat) (sched : List Nat) :
    ∀ s : system, (run index s sched).callers.length = s.callers.length := by
  induction sched with
  | nil => intro s; rfl
  | cons t rest ih =>
    intro s
    show (run index (step index s t) rest).callers.length = _
    rw [ih, step_length]

theorem step_absent (index : Nat) (s : system) (t : Nat) (h : s.callers.length ≤ t) :
    step index s t = s := by
  have hnone : s.callers[t]? = none := List.getElem?_eq_none h
  unfold step
  rw [hnone]

theorem run_absent (index : Nat) (sched : List Nat) :
    ∀ s : system, (∀ a ∈ sched, s.callers.length ≤ a) → run index s sched = s := by
  induction sched with
  | nil => intro s _; rfl
  | cons t rest ih =>
    intro s h
    show run index (step index s t) rest = s
    rw [step_absent index s t (h t (List.mem_cons_self _ _))]
    exact ih s (fun a ha => h a (List.mem_cons_of_mem _ ha))

theorem cas_wins_le_step (index : Nat) (s : system) (t : Nat) :
    s.cas_wins ≤ (step index s t).cas_wins := by
  unfold step
  split
  · exact Nat.le_refl _
  · split
    · exact Nat.le_succ _
    · exact Nat.le_refl _
  · exact Nat.le_refl _
  · split <;> exact Nat.le_refl _
  · split <;> exact Nat.le_refl _
  · split <;> exact Nat.le_refl _
  · exact Nat.le_refl _

theorem flag_ne_zero_step {index : Nat} (h : index < n) {s : system} (hs : inv index s)
    (hz : s.flag ≠ 0) (t : Nat) : (step index s t).flag ≠ 0 := by
  have hw0 := create_w0_of_lt h
  have hstep : inv index (step index s t) := inv_step (by omega) (by omega) hs t
  intro hz'
  have hcw := (hstep.fresh hz').1
  have hle := cas_wins_le_step index s t
  have := hs.won hz
  omega

theorem flag_ne_zero_run {index : Nat} (h : index < n) (sched : List Nat) :
    ∀ s : system, inv index s → s.flag ≠ 0 → (run index s sched).flag ≠ 0 := by
  induction sched with
  | nil => intro s _ hz; exact hz
  | cons t rest ih =>
    intro s hs hz
    have hw0 := create_w0_of_lt h
    exact ih _ (inv_step (by omega) (by omega) hs t) (flag_ne_zero_step h hs hz t)

/-- The first transition of a caller that exists leaves the flag different
from 0: its exchange succeeds or finds the flag already taken. -/
theorem flag_ne_zero_of_step {index : Nat} (h : index < n) {s : system} (hs : inv index s)
    {t : Nat} (ht : t < s.callers.length) : (step index s t).flag ≠ 0 := by
  by_cases hz : s.flag = 0
  · have hget : s.callers[t]? = some s.callers[t] := List.getElem?_eq_getElem ht
    have hok := hs.callers_ok t _ hget
    rw [hz] at hok
    rw [ok_flag_zero hok] at hget
    unfold step
    rw [hget]
    simp only [hz, if_true]
    exact Nat.one_ne_zero
  · exact flag_ne_zero_step h hs hz t

/-- Once a caller has taken a transition, the flag is not 0. -/
theorem flag_ne_zero_of_mem {index : Nat} (h : index < n) (k : Nat) (sched : List Nat)
    {t : Nat} (ht : t < k) (hmem : t ∈ sched) : (run index (init k) sched).flag ≠ 0 := by
  obtain ⟨a, b, rfl⟩ := List.append_of_mem hmem
  have hw0 := create_w0_of_lt h
  have hinv := inv_reachable h k a
  have hlen : t < (run index (init k) a).callers.length := by
    rw [run_length]
    simpa [init] using ht
  rw [run_append]
  show (run index (step index (run index (init k) a) t) b).flag ≠ 0
  exact flag_ne_zero_run h b _ (inv_step (by omega) (by omega) hinv t)
    (flag_ne_zero_of_step h hinv hlen)

theorem getElem?_step_of_ne (index : Nat) (s : system) {t w : Nat} (hne : t ≠ w) :
    (step index s t).callers[w]? = s.callers[w]? := by
  unfold step
  split
  · rfl
  · split <;> exact List.getElem?_set_ne hne
  · exact List.getElem?_set_ne hne
  · split <;> exact List.getElem?_set_ne hne
  · split <;> exact List.getElem?_set_ne hne
  · split <;> exact List.getElem?_set_ne hne
  · rfl

theorem getElem?_set_self_of_some {l : List caller} {t : Nat} {c c' : caller}
    (h : l[t]? = some c) : (l.set t c')[t]? = some c' := by
  have hlt : t < l.length := (List.getElem?_eq_some_iff.1 h).1
  rw [List.getElem?_set, if_pos rfl, if_pos hlt]

/-- A transition of a caller that has passed its exchange as the winner leaves
it past the call of `create`. -/
theorem created_of_step (index : Nat) (s : system) {w : Nat} {c : caller}
    (hc : s.callers[w]? = some c) (hp : c.past_cas) :
    ∃ c', (step index s w).callers[w]? = some c' ∧ c'.created := by
  cases c
  case at_cas => exact False.elim hp
  case at_spin => exact False.elim hp
  case at_read => exact False.elim hp
  case at_create =>
    unfold step
    rw [hc]
    exact ⟨_, getElem?_set_self_of_some hc, trivial⟩
  case at_copy item i =>
    unfold step
    rw [hc]
    simp only
    split
    · exact ⟨_, getElem?_set_self_of_some hc, trivial⟩
    · exact ⟨_, getElem?_set_self_of_some hc, trivial⟩
  case returned item =>
    unfold step
    rw [hc]
    exact ⟨_, hc, trivial⟩

theorem past_cas_of_created {c : caller} (h : c.created) : c.past_cas := by
  cases c <;> trivial

theorem created_step (index : Nat) (s : system) {w : Nat}
    (hc : ∃ c, s.callers[w]? = some c ∧ c.created) (t : Nat) :
    ∃ c, (step index s t).callers[w]? = some c ∧ c.created := by
  obtain ⟨c, hcw, hcr⟩ := hc
  by_cases htw : t = w
  · subst htw
    exact created_of_step index s hcw (past_cas_of_created hcr)
  · exact ⟨c, by rw [getElem?_step_of_ne index s htw]; exact hcw, hcr⟩

theorem created_run (index : Nat) {w : Nat} (sched : List Nat) :
    ∀ s : system, (∃ c, s.callers[w]? = some c ∧ c.created) →
      ∃ c, (run index s sched).callers[w]? = some c ∧ c.created := by
  induction sched with
  | nil => intro s h; exact h
  | cons t rest ih => intro s h; exact ih _ (created_step index s h t)

theorem past_cas_step (index : Nat) (s : system) {w : Nat}
    (hc : ∃ c, s.callers[w]? = some c ∧ c.past_cas) (t : Nat) :
    ∃ c, (step index s t).callers[w]? = some c ∧ c.past_cas := by
  obtain ⟨c, hcw, hcp⟩ := hc
  by_cases htw : t = w
  · subst htw
    obtain ⟨c', hc', hcr⟩ := created_of_step index s hcw hcp
    exact ⟨c', hc', past_cas_of_created hcr⟩
  · exact ⟨c, by rw [getElem?_step_of_ne index s htw]; exact hcw, hcp⟩

theorem past_cas_run (index : Nat) {w : Nat} (sched : List Nat) :
    ∀ s : system, (∃ c, s.callers[w]? = some c ∧ c.past_cas) →
      ∃ c, (run index s sched).callers[w]? = some c ∧ c.past_cas := by
  induction sched with
  | nil => intro s h; exact h
  | cons t rest ih => intro s h; exact ih _ (past_cas_step index s h t)

theorem create_calls_of_created {index : Nat} {s : system} (hs : inv index s) {w : Nat}
    (hc : ∃ c, s.callers[w]? = some c ∧ c.created) : s.create_calls = 1 := by
  obtain ⟨c, hcw, hcr⟩ := hc
  have hok := hs.callers_ok w c hcw
  cases c
  case at_copy => exact hok.2.1
  case returned => exact (hs.settled hok.1 hok.2.1).2.1
  all_goals exact False.elim hcr

/-- When the caller of the first transition of the execution takes a second
transition, `create` has been called. Transitions listed for callers that do
not exist (`k ≤ a`) change nothing. -/
theorem create_calls_of_second_step {index : Nat} (h : index < n) (k : Nat)
    (pre rest : List Nat) (w : Nat) (hpre : ∀ a ∈ pre, k ≤ a) (hw : w < k)
    (hmem : w ∈ rest) : (run index (init k) (pre ++ w :: rest)).create_calls = 1 := by
  obtain ⟨r1, r2, rfl⟩ := List.append_of_mem hmem
  have hinv := inv_reachable h k (pre ++ w :: (r1 ++ w :: r2))
  refine create_calls_of_created hinv (w := w) ?_
  have hrun : run index (init k) (pre ++ w :: (r1 ++ w :: r2)) =
      run index (step index (run index (step index (init k) w) r1) w) r2 := by
    rw [run_append, run_absent index pre (init k) (by simpa [init] using hpre)]
    show run index (step index (init k) w) (r1 ++ w :: r2) = _
    rw [run_append]
    rfl
  rw [hrun]
  have hget : (init k).callers[w]? = some caller.at_cas := by
    simp [init, List.getElem?_replicate, hw]
  have h1 : ∃ c, (step index (init k) w).callers[w]? = some c ∧ c.past_cas := by
    refine ⟨caller.at_create, ?_, trivial⟩
    unfold step
    rw [hget]
    exact getElem?_set_self_of_some hget
  obtain ⟨c2, hc2, hp2⟩ := past_cas_run index r1 _ h1
  exact created_run index r2 _ (created_of_step index _ hc2 hp2)

/-! ## Agreement of the sequential function with one caller alone -/

theorem solo_run_fresh (e : partial_atomic_item) (index : Nat) (h : e.flag = 0) :
    (run index (solo e) (List.replicate 10 0)).callers = [caller.returned (create index)] ∧
    (run index (solo e) (List.replicate 10 0)).flag = (settled index).flag ∧
    (run index (solo e) (List.replicate 10 0)).data = (settled index).data := by
  refine ⟨?_, ?_, ?_⟩
  · simp [run, step, solo, h, List.replicate]
  · simp [run, step, solo, h, List.replicate, settled]
  · simp [run, step, solo, h, List.replicate, settled]
    funext j
    fin_cases j <;> rfl

theorem solo_run_ready (e : partial_atomic_item) (index : Nat) (h0 : e.flag ≠ 0)
    (h1 : e.flag ≠ 1) :
    (run index (solo e) (List.replicate 10 0)).callers = [caller.returned (stored e)] ∧
    (run index (solo e) (List.replicate 10 0)).flag = e.flag ∧
    (run index (solo e) (List.replicate 10 0)).data = e.data := by
  refine ⟨?_, ?_, ?_⟩
  · simp [run, step, solo, h0, h1, List.replicate]
    apply cache_item.ext
    funext j
    fin_cases j <;> rfl
  · simp [run, step, solo, h0, h1, List.replicate]
  · simp [run, step, solo, h0, h1, List.replicate]

/-- A caller alone on an entry whose flag is not 1 returns within ten
transitions, with the item and the entry of the sequential `lazy_load`. -/
theorem solo_run_eq_lazy_load (e : partial_atomic_item) (index : Nat) (h1 : e.flag ≠ 1) :
    ∃ item e', lazy_load 0 e index = some (item, e') ∧
      (run index (solo e) (List.replicate 10 0)).callers = [caller.returned item] ∧
      (run index (solo e) (List.replicate 10 0)).flag = e'.flag ∧
      (run index (solo e) (List.replicate 10 0)).data = e'.data := by
  by_cases h0 : e.flag = 0
  · exact ⟨create index, settled index, lazy_load_fresh 0 e index h0, solo_run_fresh e index h0⟩
  · exact ⟨stored e, e, lazy_load_ready 0 e index h0 h1, solo_run_ready e index h0 h1⟩

/-- A caller alone on an entry whose flag is 1 stays in its spin loop. -/
theorem solo_run_in_progress (e : partial_atomic_item) (index : Nat) (h : e.flag = 1)
    (m : Nat) :
    (run index (solo e) (List.replicate (m + 1) 0)).callers = [caller.at_spin 1] ∧
    (run index (solo e) (List.replicate (m + 1) 0)).flag = 1 := by
  induction m with
  | zero => simp [run, step, solo, h, List.replicate]
  | succ k ih =>
    have happ : List.replicate (k + 1 + 1) 0 = List.replicate (k + 1) 0 ++ [0] := by
      rw [List.replicate_succ' (k + 1)]
    rw [happ, run_append]
    generalize run index (solo e) (List.replicate (k + 1) 0) = s at ih
    obtain ⟨hc, hf⟩ := ih
    simp [run, step, hc, hf]

/-! ## The properties -/

set_option maxRecDepth 20000

/-- C1. Read consistency: in every execution of any number `k` of concurrent
`lazy_load(index)` callers on a fresh entry, `index < n`, every item a caller
has returned equals `create(index)` and passes `validate(index, .)`; and while
one caller is about to write an element of `data`, no other caller is about to
write or read one, so no item is assembled from partly written words. -/
theorem read_consistency (k index : Nat) (h : index < n) (sched : List Nat) :
    (∀ (t : Nat) (item : cache_item),
        (run index (init k) sched).callers[t]? = some (caller.returned item) →
        item = create index ∧ validate index item = Except.ok ()) ∧
    (∀ (t u : Nat) (c d : caller), t ≠ u →
        (run index (init k) sched).callers[t]? = some c →
        (run index (init k) sched).callers[u]? = some d →
        c.writes_data → ¬ d.writes_data ∧ ¬ d.reads_data) := by
  have hinv := inv_reachable h k sched
  constructor
  · intro t item ht
    obtain ⟨_, _, hitem⟩ := hinv.callers_ok t _ ht
    rw [hitem]
    exact ⟨rfl, validate_create index⟩
  · intro t u c d hne hc hd hw
    have hcw : c.winning := by
      cases c <;> trivial
    have hcok := hinv.callers_ok t c hc
    have hdok := hinv.callers_ok u d hd
    have hflag : (run index (init k) sched).flag = 1 := by
      cases c
      case at_create => exact hcok.1
      case at_copy => exact hcok.1
      all_goals exact False.elim hw
    constructor
    · intro hdw
      have hdwin : d.winning := by
        cases d <;> trivial
      exact hne (hinv.unique t u c d hc hd hcw hdwin)
    · intro hdr
      cases d
      case at_read => exact hdok.2.1 hflag
      all_goals exact False.elim hdr

/-- Witness of C1: two callers of `lazy_load(3)`; caller 1 loses the exchange,
spins while caller 0 initialises the entry, and returns `create(3)`. -/
theorem read_consistency_witness :
    3 < n ∧
    (run 3 (init 2) [0, 1, 1, 0, 0, 1, 0, 0, 1, 0, 0, 0, 0, 0, 1, 1, 1, 1, 1, 1, 1, 1, 1, 1]
      ).callers[1]? = some (caller.returned (create 3)) ∧
    validate 3 (create 3) = Except.ok () :=
  ⟨by decide, rfl,
    ((read_consistency 2 3 (by decide)
      [0, 1, 1, 0, 0, 1, 0, 0, 1, 0, 0, 0, 0, 0, 1, 1, 1, 1, 1, 1, 1, 1, 1, 1]).1
        1 (create 3) rfl).2⟩

/-- C2. Single initialisation: in every execution of any number `k` of
`lazy_load(index)` callers on a fresh entry, `index < n`, exactly one exchange
of the flag from 0 to 1 has succeeded as soon as any caller has taken a
transition, and none before; a flag that is not 0 is never 0 again and no
further exchange succeeds; `create` has been called exactly once as soon as the
caller of the first transition has taken a second one, and also whenever a
caller has returned, and never more than once. -/
theorem single_initialization (k index : Nat) (h : index < n) (sched : List Nat) :
    (run index (init k) sched).cas_wins ≤ 1 ∧
    (run index (init k) sched).create_calls ≤ (run index (init k) sched).cas_wins ∧
    ((run index (init k) sched).cas_wins = 1 ↔ (run index (init k) sched).flag ≠ 0) ∧
    (∀ (t : Nat) (c : caller), (run index (init k) sched).callers[t]? = some c →
        c ≠ caller.at_cas → (run index (init k) sched).cas_wins = 1) ∧
    (∀ (t : Nat) (item : cache_item),
        (run index (init k) sched).callers[t]? = some (caller.returned item) →
        (run index (init k) sched).create_calls = 1) ∧
    ((run index (init k) sched).flag ≠ 0 → ∀ more : List Nat,
        (run index (run index (init k) sched) more).flag ≠ 0 ∧
        (run index (run index (init k) sched) more).cas_wins = 1) ∧
    (∀ t : Nat, t < k → t ∈ sched →
        (run index (init k) sched).cas_wins = 1 ∧ (run index (init k) sched).flag ≠ 0) ∧
    ((∀ t ∈ sched, k ≤ t) →
        (run index (init k) sched).cas_wins = 0 ∧ (run index (init k) sched).create_calls = 0) ∧
    (∀ (pre rest : List Nat) (w : Nat), sched = pre ++ w :: rest → (∀ a ∈ pre, k ≤ a) →
        w < k → w ∈ rest → (run index (init k) sched).create_calls = 1) := by
  have hinv := inv_reachable h k sched
  have hnz : ∀ (t : Nat) (c : caller), (run index (init k) sched).callers[t]? = some c →
      c ≠ caller.at_cas → (run index (init k) sched).flag ≠ 0 := by
    intro t c hc hne hz
    have hok := hinv.callers_ok t c hc
    rw [hz] at hok
    exact hne (ok_flag_zero hok)
  refine ⟨?_, hinv.calls_le, ⟨fun hw hz => ?_, hinv.won⟩, ?_, ?_, ?_, ?_, ?_, ?_⟩
  · by_cases hz : (run index (init k) sched).flag = 0
    · rw [(hinv.fresh hz).1]; exact Nat.zero_le _
    · rw [hinv.won hz]
  · rw [(hinv.fresh hz).1] at hw
    exact absurd hw (by decide)
  · intro t c hc hne
    exact hinv.won (hnz t c hc hne)
  · intro t item ht
    obtain ⟨hf0, hf1, _⟩ := hinv.callers_ok t _ ht
    exact (hinv.settled hf0 hf1).2.1
  · intro hz more
    have hinv2 := inv_reachable h k (sched ++ more)
    rw [run_append] at hinv2
    have hfl := flag_ne_zero_run h more _ hinv hz
    exact ⟨hfl, hinv2.won hfl⟩
  · intro t ht hmem
    have hfl := flag_ne_zero_of_mem h k sched ht hmem
    exact ⟨hinv.won hfl, hfl⟩
  · intro hall
    rw [run_absent index sched (init k) (by simpa [init] using hall)]
    exact ⟨rfl, rfl⟩
  · intro pre rest w hs hpre hw hmem
    rw [hs]
    exact create_calls_of_second_step h k pre rest w hpre hw hmem

/-- Witness of C2: two callers of `lazy_load(3)` and a transition listed for a
caller 5 that does not exist. Caller 1 takes the first transition and wins;
both callers return; one exchange succeeded and `create` was called once. -/
theorem single_initialization_witness :
    3 < n ∧
    (run 3 (init 2)
      [5, 1, 0, 0, 1, 1, 0, 1, 1, 1, 1, 1, 1, 1, 0, 0, 0, 0, 0, 0, 0, 0, 0, 0]
      ).callers = [caller.returned (create 3), caller.returned (create 3)] ∧
    (run 3 (init 2)
      [5, 1, 0, 0, 1, 1, 0, 1, 1, 1, 1, 1, 1, 1, 0, 0, 0, 0, 0, 0, 0, 0, 0, 0]
      ).cas_wins = 1 ∧
    (run 3 (init 2)
      [5, 1, 0, 0, 1, 1, 0, 1, 1, 1, 1, 1, 1, 1, 0, 0, 0, 0, 0, 0, 0, 0, 0, 0]
      ).create_calls = 1 :=
  ⟨by decide, rfl,
    ((single_initialization 2 3 (by decide)
      [5, 1, 0, 0, 1, 1, 0, 1, 1, 1, 1, 1, 1, 1, 0, 0, 0, 0, 0, 0, 0, 0, 0, 0]).2.2.2.2.2.2.1
        1 (by decide) (by decide)).1,
    (single_initialization 2 3 (by decide)
      [5, 1, 0, 0, 1, 1, 0, 1, 1, 1, 1, 1, 1, 1, 0, 0, 0, 0, 0, 0, 0, 0, 0, 0]).2.2.2.2.2.2.2.2
        [5] [0, 0, 1, 1, 0, 1, 1, 1, 1, 1, 1, 1, 0, 0, 0, 0, 0, 0, 0, 0, 0, 0] 1 rfl
        (by decide) (by decide) (by decide)⟩

/-- C3. Sentinel safety: the cache has `n = 2^30 / 64 = 16777216` slots, and
for every `index < n` word 0 of `create(index)` is at least 17, hence neither
0 nor 1. -/
theorem sentinel_safety (index : Nat) (h : index < n) :
    n = 2 ^ 30 / 64 ∧ n = 16777216 ∧
    17 ≤ (create index).w 0 ∧ (create index).w 0 ≠ 0 ∧ (create index).w 0 ≠ 1 := by
  have hw := create_w0_of_lt h
  refine ⟨by decide, n_eq, ?_, ?_, ?_⟩ <;> omega

/-- Witness of C3 at the last slot of the cache. -/
theorem sentinel_safety_witness :
    16777215 < n ∧ 17 ≤ (create 16777215).w 0 ∧ (create 16777215).w 0 ≠ 0 ∧
      (create 16777215).w 0 ≠ 1 :=
  ⟨by decide, (sentinel_safety 16777215 (by decide)).2.2⟩

/-- C4. Determinism of the generator: word `j` of `create(index)` is
`index + j + 17` reduced modulo `2^64`, and for `index < n` it is exactly
`index + j + 17`; `create` is a function of `index` alone. -/
theorem create_deterministic (index : Nat) (j : Fin 8) :
    (create index).w j = (index + j.val + 17) % 2 ^ 64 ∧
    (index < n → (create index).w j = index + j.val + 17) :=
  ⟨create_w index j, fun h => create_w_of_lt h j⟩

/-- Witness of C4 at index 5, word 7. -/
theorem create_deterministic_witness : 5 < n ∧ (create 5).w 7 = 5 + 7 + 17 :=
  ⟨by decide, (create_deterministic 5 7).2 (by decide)⟩

/-- C5. Idempotence after settling: on an entry in the Ready state, whatever
its tail words and whatever the index argument, a sequential `lazy_load`
returns the item made of the flag and the seven tail words and leaves the
entry as it was; hence every sequence of calls returns that same item every
time and the entry stays Ready. -/
theorem ready_idempotent (e : partial_atomic_item) (h : ready e) (fuel index : Nat)
    (indices : List Nat) :
    lazy_load fuel e index = some (stored e, e) ∧
    (stored e).w 0 = e.flag ∧ (∀ j : Fin 7, (stored e).w j.succ = e.data j) ∧
    repeated_calls fuel e indices = some (List.replicate indices.length (stored e), e) := by
  refine ⟨lazy_load_ready fuel e index h.1 h.2, rfl, fun _ => rfl, ?_⟩
  induction indices with
  | nil => rfl
  | cons a rest ih =>
    unfold repeated_calls
    rw [lazy_load_ready fuel e a h.1 h.2]
    simp only [ih]
    rfl

/-- Witness of C5: an entry with flag 5 and tail words 1, ..., 7, called with
the indices 9, 0 and 9. -/
theorem ready_idempotent_witness :
    ready { flag := 5, data := fun j => j.val + 1 } ∧
    repeated_calls 0 { flag := 5, data := fun j => j.val + 1 } [9, 0, 9] =
      some (List.replicate 3 (stored { flag := 5, data := fun j => j.val + 1 }),
        { flag := 5, data := fun j => j.val + 1 }) :=
  ⟨by decide,
    (ready_idempotent { flag := 5, data := fun j => j.val + 1 } (by decide) 0 9 [9, 0, 9]).2.2.2⟩

/-- C7. A sequential `lazy_load(index)`, `index < n`, on an entry reached from
the fresh entry by sequential `lazy_load(index)` calls returns with no
iteration of the spin loop (the bound 0 suffices, and any bound gives the same
result), and the item returned is `create(index)`, which passes
`validate(index, .)`. -/
theorem lazy_load_total (index : Nat) (h : index < n) (e : partial_atomic_item)
    (hr : seq_reachable index e) :
    ∃ e', lazy_load 0 e index = some (create index, e') ∧
      validate index (create index) = Except.ok () ∧
      (∀ fuel, lazy_load fuel e index = some (create index, e')) ∧
      seq_reachable index e' :=
  ⟨settled index, lazy_load_of_dag_ok h (seq_reachable_cases h hr) 0, validate_create index,
    fun fuel => lazy_load_of_dag_ok h (seq_reachable_cases h hr) fuel,
    seq_reachable.call 0 e _ _ hr (lazy_load_of_dag_ok h (seq_reachable_cases h hr) 0)⟩

/-- Witness of C7: the second call of `lazy_load(3)` on an entry. -/
theorem lazy_load_total_witness :
    3 < n ∧ seq_reachable 3 (settled 3) ∧
    ∃ e', lazy_load 0 (settled 3) 3 = some (create 3, e') ∧
      validate 3 (create 3) = Except.ok () ∧
      (∀ fuel, lazy_load fuel (settled 3) 3 = some (create 3, e')) ∧
      seq_reachable 3 e' :=
  ⟨by decide, seq_reachable.call 0 {} _ _ seq_reachable.fresh (lazy_load_fresh 0 {} 3 rfl),
    lazy_load_total 3 (by decide) (settled 3)
      (seq_reachable.call 0 {} _ _ seq_reachable.fresh (lazy_load_fresh 0 {} 3 rfl))⟩

/-- C8. The function `validate` accepts exactly the canonical item: it returns
normally if and only if every word `j` is `index + j + 17` modulo `2^64`, that
is, if and only if the item is `create(index)`; otherwise it throws
`short(1)`. -/
theorem validate_accepts_exactly (index : Nat) (item : cache_item) :
    (validate index item = Except.ok () ↔
      ∀ j : Fin 8, item.w j = (index + j.val + 17) % 2 ^ 64) ∧
    (validate index item = Except.ok () ↔ item = create index) ∧
    (validate index item = Except.ok () ∨ validate index item = Except.error 1) := by
  refine ⟨validate_ok_iff index item, ⟨fun hv => ?_, fun he => ?_⟩, ?_⟩
  · apply cache_item.ext
    funext j
    rw [create_w]
    exact (validate_ok_iff index item).1 hv j
  · rw [he]; exact validate_create index
  · unfold validate
    exact forM_check_error _ _

/-- C9, as the code has it: a missing argument gives the default (`t = 64`,
`global_iterations = 100000000`); an argument that is present is converted by
`stoul` and the converted value is taken, and when `stoul` throws, the
exception leaves `main`: there is no fall-back to the default. -/
theorem main_config_spec {ε : Type} (stoul : String → Except ε Nat) (prog a1 a2 : String)
    (rest : List String) :
    main_config stoul [] = Except.ok (64, 100000000) ∧
    main_config stoul [prog] = Except.ok (64, 100000000) ∧
    (∀ t, stoul a1 = Except.ok t → main_config stoul [prog, a1] = Except.ok (t, 100000000)) ∧
    (∀ t g, stoul a1 = Except.ok t → stoul a2 = Except.ok g →
      main_config stoul (prog :: a1 :: a2 :: rest) = Except.ok (t, g)) ∧
    (∀ err, stoul a1 = Except.error err →
      main_config stoul (prog :: a1 :: rest) = Except.error err) ∧
    (∀ t err, stoul a1 = Except.ok t → stoul a2 = Except.error err →
      main_config stoul (prog :: a1 :: a2 :: rest) = Except.error err) := by
  refine ⟨rfl, rfl, ?_, ?_, ?_, ?_⟩
  · intro t h1
    simp [main_config, h1]
  · intro t g h1 h2
    simp [main_config, h1, h2]
    rfl
  · intro err h1
    simp [main_config, h1]
    rfl
  · intro t err h1 h2
    simp [main_config, h1, h2]
    rfl

/-- Witness of C9 as amended, with the conversion of the standard library:
`prog 8 500` and `prog 8 x`. -/
theorem main_config_spec_witness :
    std_stoul "8" = Except.ok 8 ∧ std_stoul "500" = Except.ok 500 ∧
    std_stoul "x" = Except.error stoul_error.invalid_argument ∧
    main_config std_stoul ["prog", "8", "500"] = Except.ok (8, 500) ∧
    main_config std_stoul ["prog", "8", "x"] = Except.error stoul_error.invalid_argument :=
  ⟨rfl, rfl, rfl,
    (main_config_spec std_stoul "prog" "8" "500" []).2.2.2.1 8 500 rfl rfl,
    (main_config_spec std_stoul "prog" "8" "x" []).2.2.2.2.2 8 stoul_error.invalid_argument
      rfl rfl⟩

/-- Counterexample to C9 as stated: with an argument that is not a number,
`std::stoul` throws `std::invalid_argument` and the configuration is not the
default; with an argument too large for `unsigned long` it throws
`std::out_of_range`. -/
theorem main_config_invalid_argument :
    main_config std_stoul ["prog", "abc"] = Except.error stoul_error.invalid_argument ∧
    main_config std_stoul ["prog", "abc"] ≠ Except.ok (64, 100000000) ∧
    main_config std_stoul ["prog", "8", "99999999999999999999"] =
      Except.error stoul_error.out_of_range := by
  have hthrow : main_config std_stoul ["prog", "abc"] =
      Except.error stoul_error.invalid_argument := rfl
  refine ⟨hthrow, ?_, rfl⟩
  rw [hthrow]
  exact fun hc => Except.noConfusion hc

/-- C10. Winner post-state and sentinel collision: for `index < 2^64`, a
sequential `lazy_load(index)` on an entry with flag 0 returns `create(index)`
and leaves the flag `(index + 17) mod 2^64` and `data[j]`
`(index + j + 18) mod 2^64`; the entry is Ready afterwards if and only if
`index` is neither `2^64 - 17` nor `2^64 - 16`. For `index = 2^64 - 16` the flag
is left 1 and a further sequential `lazy_load` exceeds every bound on the
iterations of its spin loop; for `index = 2^64 - 17` the flag is left 0. -/
theorem winner_post_state (index : Nat) (h : index < 2 ^ 64) (e : partial_atomic_item)
    (he : e.flag = 0) (fuel : Nat) :
    ∃ e', lazy_load fuel e index = some (create index, e') ∧
      e'.flag = (index + 17) % 2 ^ 64 ∧
      (∀ j : Fin 7, e'.data j = (index + j.val + 18) % 2 ^ 64) ∧
      (ready e' ↔ index ≠ 2 ^ 64 - 17 ∧ index ≠ 2 ^ 64 - 16) ∧
      (index = 2 ^ 64 - 16 →
        e'.flag = 1 ∧ ∀ fuel' index', lazy_load fuel' e' index' = none) ∧
      (index = 2 ^ 64 - 17 → e'.flag = 0) := by
  have hflag : (settled index).flag = (index + 17) % 2 ^ 64 := by
    show (create index).w 0 = _
    rw [create_w]; rfl
  refine ⟨settled index, lazy_load_fresh fuel e index he, hflag, ?_, ?_, ?_, ?_⟩
  · intro j
    show (create index).w j.succ = _
    rw [create_w]
    show (index + (j.val + 1) + 17) % 2 ^ 64 = _
    congr 1
  · unfold ready
    rw [hflag]
    omega
  · intro hi
    have h1 : (settled index).flag = 1 := by rw [hflag]; omega
    exact ⟨h1, fun fuel' index' => lazy_load_in_progress fuel' _ index' h1⟩
  · intro hi
    rw [hflag]; omega

/-- Witness of C10 at `index = 2^64 - 16`, where the flag is left 1. -/
theorem winner_post_state_witness :
    ∃ e', lazy_load 0 {} (2 ^ 64 - 16) = some (create (2 ^ 64 - 16), e') ∧
      e'.flag = (2 ^ 64 - 16 + 17) % 2 ^ 64 ∧
      (∀ j : Fin 7, e'.data j = (2 ^ 64 - 16 + j.val + 18) % 2 ^ 64) ∧
      (ready e' ↔ 2 ^ 64 - 16 ≠ 2 ^ 64 - 17 ∧ 2 ^ 64 - 16 ≠ 2 ^ 64 - 16) ∧
      (2 ^ 64 - 16 = 2 ^ 64 - 16 →
        e'.flag = 1 ∧ ∀ fuel' index', lazy_load fuel' e' index' = none) ∧
      (2 ^ 64 - 16 = 2 ^ 64 - 17 → e'.flag = 0) :=
  winner_post_state (2 ^ 64 - 16) (by norm_num) {} rfl 0

end LazyDag
